import Mathlib

/-!
Shallow embedding of the citation detection and resolution engine
(app/models.py, app/detection/detector.py, app/detection/short_form.py,
app/classifier/rule_classifier.py) together with theorems settling the
claims about it.  Strings are modelled as Lean strings operated on through
their character lists; the small Python regexes used by the engine are
implemented directly as backtracking matchers over character lists with
Python's greedy leftmost semantics (on the ASCII fragment the engine
actually exercises).  The page scan that produces raw matches is the
upstream stage; the pipeline is embedded from the raw-match list onward,
so properties quantify over every possible scanner output.
-/

namespace ToA

/-- Whitespace characters, the ASCII fragment of the Python regex class
for whitespace and of str.strip. -/
def isSpaceChar (c : Char) : Bool :=
  c == ' ' || c == '\t' || c == '\n' || c == '\r' ||
  c == Char.ofNat 11 || c == Char.ofNat 12

/-- Python regex digit class (ASCII fragment). -/
def isDigitChar (c : Char) : Bool := c.isDigit

/-- Python regex non-whitespace class. -/
def isNonSpace (c : Char) : Bool := !isSpaceChar c

/-- The character class combining whitespace and the period, as in the
Python character class used by the normalizer. -/
def isSpaceDot (c : Char) : Bool := isSpaceChar c || c == '.'

/-- Python str.lower on the ASCII fragment. -/
def toLowerL (l : List Char) : List Char := l.map Char.toLower

/-- Python str.strip with no arguments: drop leading and trailing whitespace. -/
def pyStripL (l : List Char) : List Char :=
  ((l.dropWhile isSpaceChar).reverse.dropWhile isSpaceChar).reverse

/-- Python str.strip lifted to strings. -/
def pyStrip (s : String) : String := String.mk (pyStripL s.data)

/-- listLeads pat s is true when s starts with pat, Python startswith. -/
def listLeads : List Char → List Char → Bool
  | [], _ => true
  | _ :: _, [] => false
  | p :: ps, c :: cs => if p = c then listLeads ps cs else false

/-- listContainsSub hay nd is Python substring containment, nd in hay. -/
def listContainsSub : List Char → List Char → Bool
  | [], nd => listLeads nd []
  | c :: t, nd => if listLeads nd (c :: t) then true else listContainsSub t nd

/-- takeUntilSub sep s is Python s.split(sep)[0], the text before the first
occurrence of sep, the whole of s when sep does not occur. -/
def takeUntilSub (sep : List Char) : List Char → List Char
  | [] => []
  | c :: t => if listLeads sep (c :: t) then [] else c :: takeUntilSub sep t

/-- Helper for subRuns carrying whether the previous character was part of a
run being replaced. -/
def subRunsGo (p : Char → Bool) (rep : List Char) : List Char → Bool → List Char
  | [], _ => []
  | c :: t, inRun =>
    if p c then (if inRun then [] else rep) ++ subRunsGo p rep t true
    else c :: subRunsGo p rep t false

/-- subRuns p rep s is Python re.sub replacing each maximal nonempty run of
characters satisfying p by rep. -/
def subRuns (p : Char → Bool) (rep : List Char) (l : List Char) : List Char :=
  subRunsGo p rep l false

/-- All ways to split s as (run, rest) where run is a possibly empty run of
p-characters, longest first: the candidate order of a greedy star over a
character class in Python backtracking order. -/
def runSplits (p : Char → Bool) : List Char → List (List Char × List Char)
  | [] => [([], [])]
  | c :: t =>
    if p c then (runSplits p t).map (fun pr => (c :: pr.1, pr.2)) ++ [([], c :: t)]
    else [([], c :: t)]

/-- Candidates of a greedy plus over a character class: nonempty runs,
longest first. -/
def plusSplits (p : Char → Bool) (s : List Char) : List (List Char × List Char) :=
  (runSplits p s).filter (fun pr => !pr.1.isEmpty)

/-- Candidates for the starred group of the case-triple regex, a period
followed by optional whitespace (when allowSpace is true, matching the
detector regex; the claim wording of C5 has no whitespace there) and a
nonempty nonspace run, repeated; enumerated in Python greedy backtracking
order, most iterations first.  Each iteration consumes at least two
characters, so fuel equal to the length of s is sufficient. -/
def repSplits (allowSpace : Bool) : Nat → List Char → List (List Char × List Char)
  | 0, s => [([], s)]
  | fuel + 1, s =>
    (match s with
     | '.' :: t =>
       let wsOpts := if allowSpace then runSplits isSpaceChar t else [([], t)]
       wsOpts.flatMap (fun wr =>
         (plusSplits isNonSpace wr.2).flatMap (fun nr =>
           (repSplits allowSpace fuel nr.2).map
             (fun ar => ('.' :: (wr.1 ++ nr.1 ++ ar.1), ar.2))))
     | _ => []) ++ [([], s)]

/-- Backtracking matcher, anchored at the start of s, for the Python regex
of the case normalizer, digits, whitespace, a reporter token possibly
containing periods (with optional whitespace after each interior period
when allowSpace is true), whitespace, digits; groups are returned in
Python first-match order. -/
def tryTripleAt (allowSpace : Bool) (s : List Char) :
    Option (List Char × List Char × List Char) :=
  (plusSplits isDigitChar s).findSome? (fun d1 =>
    (plusSplits isSpaceChar d1.2).findSome? (fun w1 =>
      (plusSplits isNonSpace w1.2).findSome? (fun t1 =>
        (repSplits allowSpace t1.2.length t1.2).findSome? (fun t2 =>
          (plusSplits isSpaceChar t2.2).findSome? (fun _w2 =>
            (plusSplits isDigitChar _w2.2).findSome? (fun d2 =>
              some (d1.1, t1.1 ++ t2.1, d2.1)))))))

/-- Python re.search for the case-triple regex: try each start position
left to right. -/
def searchTriple (allowSpace : Bool) : List Char → Option (List Char × List Char × List Char)
  | [] => none
  | c :: t =>
    match tryTripleAt allowSpace (c :: t) with
    | some r => some r
    | none => searchTriple allowSpace t

/-- Anchored matcher for the volume-reporter regex of the short-pincite
resolver, digits, whitespace, then a nonspace token.  Nothing follows the
final group in that regex, so the greedy engine commits to the maximal
digit, whitespace and nonspace runs, and the optional period-continuation
in the group never extends past the maximal nonspace run. -/
def anchoredVolRep (s : List Char) : Option (List Char × List Char) :=
  let d := s.takeWhile isDigitChar
  if d.isEmpty then none
  else
    let r1 := s.dropWhile isDigitChar
    if (r1.takeWhile isSpaceChar).isEmpty then none
    else
      let r2 := r1.dropWhile isSpaceChar
      let tok := r2.takeWhile isNonSpace
      if tok.isEmpty then none else some (d, tok)

/-- Python re.search for the volume-reporter regex: try each start position
left to right. -/
def searchVolRep : List Char → Option (List Char × List Char)
  | [] => none
  | c :: t =>
    match anchoredVolRep (c :: t) with
    | some r => some r
    | none => searchVolRep t

/-- Python string comparison, lexicographic by code point. -/
def charsLe : List Char → List Char → Bool
  | [], _ => true
  | _ :: _, [] => false
  | a :: al, b :: bl =>
    if a.toNat < b.toNat then true
    else if b.toNat < a.toNat then false
    else charsLe al bl

/-- Citation categories in display order, models.CitationCategory. -/
inductive CitationCategory
  | CASES
  | STATUTES
  | CONSTITUTIONAL
  | RULES
  | OTHER
deriving DecidableEq, Repr

/-- CitationCategory.sort_order, the position in the fixed declaration order. -/
def CitationCategory.sort_order : CitationCategory → Nat
  | .CASES => 0
  | .STATUTES => 1
  | .CONSTITUTIONAL => 2
  | .RULES => 3
  | .OTHER => 4

/-- models.Citation; confidence is modelled as a rational number. -/
structure Citation where
  full_text : String
  display_name : String
  category : CitationCategory
  pages : List Nat := []
  is_primary : Bool := false
  is_short_form : Bool := false
  parent_key : Option String := none
  normalized_key : String := ""
  confidence : ℚ := 1
  sort_key : String := ""
deriving DecidableEq, Repr

/-- detector._RawMatch; the field endPos models the end offset. -/
structure RawMatch where
  text : String
  start : Nat
  endPos : Nat
  page : Nat
  pattern_name : String
  category : CitationCategory
deriving DecidableEq, Repr

/-- Python list.sort on page numbers, a stable ascending sort. -/
def sortNat (l : List Nat) : List Nat := List.insertionSort (· ≤ ·) l

/-- Citation.merge_pages: append each page of other not already present,
then sort. -/
def merge_pages (self other : Citation) : Citation :=
  { self with
    pages := sortNat (other.pages.foldl
      (fun acc p => if p ∈ acc then acc else acc ++ [p]) self.pages) }

/-- The leading-article stripping step of Citation.generate_sort_key. -/
def stripArticle (s : List Char) : List Char :=
  if listLeads ['A', ' '] s then s.drop 2
  else if listLeads ['A', 'n', ' '] s then s.drop 3
  else if listLeads ['T', 'h', 'e', ' '] s then s.drop 4
  else s

/-- Citation.generate_sort_key, returning the citation with the computed
sort_key field. -/
def generate_sort_key (c : Citation) : Citation :=
  let name := pyStripL c.display_name.data
  let name := pyStripL (name.dropWhile (fun ch => ch == '*'))
  let name := stripArticle name
  { c with sort_key := String.mk (pyStripL ((toLowerL name).filter
      (fun ch => ch.isLower || ch.isDigit || ch == ' '))) }

/-- Pattern-name family tags used by load-bearing startswith checks. -/
def caseTag : List Char := ['c', 'a', 's', 'e', '_']

/-- The statute pattern-family tag. -/
def statuteTag : List Char := ['s', 't', 'a', 't', 'u', 't', 'e', '_']

/-- The rule pattern-family tag. -/
def ruleTag : List Char := ['r', 'u', 'l', 'e', '_']

/-- The constitutional pattern-family tag. -/
def constTag : List Char := ['c', 'o', 'n', 's', 't', '_']

/-- The short-form pattern-family tag. -/
def shortTag : List Char := ['s', 'h', 'o', 'r', 't', '_']

/-- The section symbol replaced by the statute normalizer. -/
def isSectionChar (c : Char) : Bool := c == '§'

/-- CitationDetector._normalize: derive the dedup key from citation text
and originating pattern name. -/
def normalize (text pattern_name : String) : String :=
  let norm := subRuns isSpaceChar [' '] (toLowerL (pyStripL text.data))
  let caseKey : Option (List Char) :=
    if listLeads caseTag pattern_name.data then
      match searchTriple true norm with
      | some (vol, rep, page) =>
        some (vol ++ '_' :: (rep.filter (fun c => !isSpaceDot c)) ++ '_' :: page)
      | none => none
    else none
  match caseKey with
  | some k => String.mk k
  | none =>
    if listLeads statuteTag pattern_name.data then
      String.mk (subRuns isSpaceDot ['_'] (subRuns isSectionChar ['s'] norm))
    else if listLeads ruleTag pattern_name.data then
      String.mk (subRuns isSpaceDot ['_'] norm)
    else if listLeads constTag pattern_name.data then
      String.mk (subRuns isSpaceDot ['_'] norm)
    else
      String.mk (subRuns isSpaceDot ['_'] norm)

/-- CitationDetector._make_display_name: collapse whitespace in the
stripped text (the category argument of the source function does not
influence the result). -/
def make_display_name (text : String) : String :=
  String.mk (subRuns isSpaceChar [' '] (pyStripL text.data))

/-- CitationDetector._to_citations: convert surviving raw matches to
Citation records. -/
def to_citations (ms : List RawMatch) : List Citation :=
  ms.map (fun m =>
    let is_short := listLeads shortTag m.pattern_name.data
    { full_text := m.text
      display_name := make_display_name m.text
      category := m.category
      pages := [m.page]
      is_short_form := is_short
      normalized_key := if is_short then "" else normalize m.text m.pattern_name
      confidence := 1 })

/-- Sort relation of _remove_overlaps, the Python key
(-(end - start), start) with integer subtraction, compared
lexicographically. -/
def raw_order (a b : RawMatch) : Prop :=
  ((b.endPos : Int) - (b.start : Int) < (a.endPos : Int) - (a.start : Int)) ∨
  ((a.endPos : Int) - (a.start : Int) = (b.endPos : Int) - (b.start : Int) ∧
    a.start ≤ b.start)

instance : DecidableRel raw_order := fun a b => by
  unfold raw_order; exact inferInstance

/-- The final re-sort of _remove_overlaps by start offset. -/
def start_order (a b : RawMatch) : Prop := a.start ≤ b.start

instance : DecidableRel start_order := fun a b => by
  unfold start_order; exact inferInstance

/-- The overlap test of _remove_overlaps against the occupied intervals. -/
def overlapsAny (m : RawMatch) (occ : List (Nat × Nat)) : Bool :=
  occ.any (fun o => decide (m.start < o.2) && decide (m.endPos > o.1))

/-- The greedy acceptance walk of _remove_overlaps. -/
def keepLoop : List RawMatch → List (Nat × Nat) → List RawMatch
  | [], _ => []
  | m :: rest, occ =>
    if overlapsAny m occ then keepLoop rest occ
    else m :: keepLoop rest (occ ++ [(m.start, m.endPos)])

/-- CitationDetector._remove_overlaps. -/
def remove_overlaps (ms : List RawMatch) : List RawMatch :=
  if ms.isEmpty then []
  else List.insertionSort start_order (keepLoop (List.insertionSort raw_order ms) [])

/-- The lowercased needle for the Id. check. -/
def idTag : List Char := ['i', 'd', '.']

/-- The lowercased needle for the Ibid. check. -/
def ibidTag : List Char := ['i', 'b', 'i', 'd', '.']

/-- The needle for the supra check. -/
def supraTag : List Char := ['s', 'u', 'p', 'r', 'a']

/-- short_form._is_id_cite: the text begins, case-insensitively, with Id.
or Ibid. -/
def is_id_cite (text : String) : Bool :=
  listLeads idTag (toLowerL text.data) || listLeads ibidTag (toLowerL text.data)

/-- short_form._is_supra_cite: the lowercased text contains supra. -/
def is_supra_cite (text : String) : Bool :=
  listContainsSub (toLowerL text.data) supraTag

/-- Python min(pages) if pages else 0. -/
def min_pages : List Nat → Nat
  | [] => 0
  | p :: ps => ps.foldl Nat.min p

/-- The page-order relation used to sort full citations in
resolve_short_forms. -/
def page_order (a b : Citation) : Prop := min_pages a.pages ≤ min_pages b.pages

instance : DecidableRel page_order := fun a b => by
  unfold page_order; exact inferInstance

/-- The page-ordered full-citation list built by resolve_short_forms,
Python sorted with the minimum-page key (a stable ascending sort). -/
def ordered_fulls (full_cites : List Citation) : List Citation :=
  List.insertionSort page_order full_cites

/-- The walk of _resolve_id: remember the last full citation whose minimum
page is at most p, stopping at the first that exceeds it. -/
def lastLE (p : Nat) : List Citation → Option Citation → Option Citation
  | [], best => best
  | fc :: rest, best =>
    if min_pages fc.pages ≤ p then lastLE p rest (some fc) else best

/-- short_form._resolve_id. -/
def resolve_id (sc : Citation) (ordered : List Citation) (sc_page : Nat) : Citation :=
  match lastLE sc_page ordered none with
  | some best => { sc with parent_key := some best.normalized_key, category := best.category }
  | none => sc

/-- Anchored matcher for the leading-name regex of _resolve_supra, an
uppercase letter, lowercase letters, optionally whitespace and a second
capitalized word.  Nothing follows the group in that regex, so the greedy
engine keeps the maximal runs and takes the optional second word exactly
when it is present. -/
def matchSupraName (s : List Char) : Option (List Char) :=
  match s with
  | [] => none
  | c :: t =>
    if c.isUpper then
      let l1 := t.takeWhile Char.isLower
      if l1.isEmpty then none
      else
        let r1 := t.dropWhile Char.isLower
        let ws := r1.takeWhile isSpaceChar
        let r2 := r1.dropWhile isSpaceChar
        if ws.isEmpty then some (c :: l1)
        else
          match r2 with
          | [] => some (c :: l1)
          | d :: u =>
            if d.isUpper then
              let l2 := u.takeWhile Char.isLower
              if l2.isEmpty then some (c :: l1) else some (c :: l1 ++ ws ++ d :: l2)
            else some (c :: l1)
    else none

/-- The separator before a first party name, literally space v period. -/
def vDotSep : List Char := [' ', 'v', '.']

/-- The separator before a first party name, literally space v space. -/
def vSpaceSep : List Char := [' ', 'v', ' ']

/-- The first-party text of a full citation in _resolve_supra,
display_name split before the party separators, stripped and lowercased. -/
def first_party (fc : Citation) : List Char :=
  toLowerL (pyStripL (takeUntilSub vSpaceSep (takeUntilSub vDotSep fc.display_name.data)))

/-- The scan of _resolve_supra over the page-ordered full citations. -/
def supraLoop (name : List Char) (sc : Citation) : List Citation → Citation
  | [] => sc
  | fc :: rest =>
    if listContainsSub (first_party fc) name || listLeads name (first_party fc) then
      { sc with parent_key := some fc.normalized_key, category := fc.category }
    else supraLoop name sc rest

/-- short_form._resolve_supra. -/
def resolve_supra (sc : Citation) (ordered : List Citation) (text : String) : Citation :=
  match matchSupraName text.data with
  | none => sc
  | some nm => supraLoop (toLowerL nm) sc ordered

/-- The normalization applied to reporter tokens in
_resolve_short_pincite, lowercase then remove whitespace and periods. -/
def stripDotsLower (l : List Char) : List Char :=
  (toLowerL l).filter (fun c => !isSpaceDot c)

/-- The scan of _resolve_short_pincite over the full citations in input
order. -/
def pincLoop (vol rep : List Char) (sc : Citation) : List Citation → Citation
  | [] => sc
  | fc :: rest =>
    match searchVolRep fc.full_text.data with
    | some (fv, fr) =>
      if fv == vol && stripDotsLower fr == rep then
        { sc with parent_key := some fc.normalized_key, category := fc.category }
      else pincLoop vol rep sc rest
    | none => pincLoop vol rep sc rest

/-- short_form._resolve_short_pincite. -/
def resolve_short_pincite (sc : Citation) (full_cites : List Citation) (text : String) : Citation :=
  match anchoredVolRep text.data with
  | none => sc
  | some (vol, rep) => pincLoop vol (stripDotsLower rep) sc full_cites

/-- The per-citation strategy dispatch inside resolve_short_forms. -/
def resolve_one (full_cites ordered : List Citation) (sc : Citation) : Citation :=
  let sc_page := min_pages sc.pages
  let text := pyStrip sc.full_text
  if is_id_cite text then resolve_id sc ordered sc_page
  else if is_supra_cite text then resolve_supra sc ordered text
  else resolve_short_pincite sc full_cites text

/-- short_form.resolve_short_forms, returning the full citations (which
the source never assigns to) and the updated short citations, modelling
the in-place update. -/
def resolve_short_forms (full_cites short_cites : List Citation) :
    List Citation × List Citation :=
  if full_cites.isEmpty || short_cites.isEmpty then (full_cites, short_cites)
  else (full_cites, short_cites.map (resolve_one full_cites (ordered_fulls full_cites)))

/-- Association-list lookup modelling Python dict indexing by
normalized key. -/
def lookupAssoc : List (String × Citation) → String → Option Citation
  | [], _ => none
  | kv :: t, k => if kv.1 = k then some kv.2 else lookupAssoc t k

/-- In-place value update of the insertion-ordered association list. -/
def updateAssoc : List (String × Citation) → String → (Citation → Citation) →
    List (String × Citation)
  | [], _, _ => []
  | kv :: t, k, f => if kv.1 = k then (kv.1, f kv.2) :: t else kv :: updateAssoc t k f

/-- Step 6 of detect: walk the full citations building the key-to-canonical
mapping, modelling the insertion-ordered Python dict. -/
def buildKeyMap : List Citation → List (String × Citation) → List (String × Citation)
  | [], m => m
  | c :: cs, m =>
    match lookupAssoc m c.normalized_key with
    | some _ => buildKeyMap cs (updateAssoc m c.normalized_key (fun can => merge_pages can c))
    | none => buildKeyMap cs (m ++ [(c.normalized_key, c)])

/-- One step of short-form page absorption in detect: append the page if
absent, then sort. -/
def add_page (pages : List Nat) (p : Nat) : List Nat :=
  if p ∈ pages then pages else sortNat (pages ++ [p])

/-- Short-form page absorption in detect for one short citation, guarded
by the truthiness of parent_key and its presence among the keys. -/
def absorbOne (m : List (String × Citation)) (sc : Citation) : List (String × Citation) :=
  match sc.parent_key with
  | none => m
  | some k =>
    if k ≠ "" ∧ (lookupAssoc m k).isSome then
      updateAssoc m k (fun can => { can with pages := sc.pages.foldl add_page can.pages })
    else m

/-- The final ordering of detect, the Python key
(category.sort_order, sort_key) compared lexicographically. -/
def final_order (a b : Citation) : Prop :=
  a.category.sort_order < b.category.sort_order ∨
  (a.category.sort_order = b.category.sort_order ∧
    charsLe a.sort_key.data b.sort_key.data = true)

instance : DecidableRel final_order := fun a b => by
  unfold final_order; exact inferInstance

/-- Steps 4 to 8 of CitationDetector.detect, from built citations to the
final deduplicated, merged, sorted list. -/
def detect_tail (citations : List Citation) : List Citation :=
  let full_cites := citations.filter (fun c => !c.is_short_form)
  let short_cites := citations.filter (fun c => c.is_short_form)
  let rs := resolve_short_forms full_cites short_cites
  let m := buildKeyMap rs.1 []
  let m2 := rs.2.foldl absorbOne m
  List.insertionSort final_order (m2.map (fun kv => generate_sort_key kv.2))

/-- CitationDetector.detect from the scanned raw matches, steps 2 to 8 of
the pipeline; the page scan producing the raw matches is the upstream
regex stage, so theorems quantify over its possible outputs. -/
def detect (raw_matches : List RawMatch) : List Citation :=
  detect_tail (to_citations (remove_overlaps raw_matches))

/-- Anchored matcher for a keyword, at least one whitespace, then a second
keyword, as in the anchored alternation of rule_classifier (the greedy
whitespace run cannot backtrack usefully, since shortening it leaves a
whitespace character where the second keyword must start). -/
def kw2 (w1 w2 s : List Char) : Bool :=
  if listLeads w1 s then
    let r := s.drop w1.length
    if (r.takeWhile isSpaceChar).isEmpty then false
    else listLeads w2 (r.dropWhile isSpaceChar)
  else false

/-- The party-separator test of rule_classifier, space v period or
space v space occurring in the text. -/
def has_v_marker (text : String) : Bool :=
  listContainsSub text.data vDotSep || listContainsSub text.data vSpaceSep

/-- The anchored In re, Ex parte, Matter of test of rule_classifier. -/
def in_re_match (text : String) : Bool :=
  kw2 ['I', 'n'] ['r', 'e'] text.data ||
  kw2 ['E', 'x'] ['p', 'a', 'r', 't', 'e'] text.data ||
  kw2 ['M', 'a', 't', 't', 'e', 'r'] ['o', 'f'] text.data

/-- rule_classifier.reclassify for one citation.  The two compiled regex
searches for treatise and law-review signals are pure functions of the
citation text and are taken as the parameters tre and lrev. -/
def reclassify_one (tre lrev : String → Bool) (c : Citation) : Citation :=
  if c.is_short_form then c
  else if c.category = .CASES ∧ tre c.full_text then
    { c with category := .OTHER, confidence := 9 / 10 }
  else if c.category = .CASES ∧ lrev c.full_text then
    { c with category := .OTHER, confidence := 9 / 10 }
  else if c.category = .CASES ∧ has_v_marker c.full_text = false ∧
      in_re_match c.full_text = false then
    { c with confidence := 6 / 10 }
  else c

/-- rule_classifier.reclassify, the in-place pass over all citations. -/
def reclassify (tre lrev : String → Bool) (citations : List Citation) : List Citation :=
  citations.map (reclassify_one tre lrev)

/-- The key computation exactly as the claim C5 words it, for comparison
with the source normalizer: lowercase and collapse whitespace, extract the
first triple with no whitespace allowed after interior periods of the
reporter, strip whitespace and periods from the reporter, join; on failed
extraction apply the generic rule. -/
def claim_case_key (text : String) : String :=
  let norm := subRuns isSpaceChar [' '] (toLowerL (pyStripL text.data))
  match searchTriple false norm with
  | some (vol, rep, page) =>
    String.mk (vol ++ '_' :: (rep.filter (fun c => !isSpaceDot c)) ++ '_' :: page)
  | none => String.mk (subRuns isSpaceDot ['_'] norm)

/-- The amended claim C5 key computation, identical to claim_case_key
except that whitespace may follow each interior period of the reporter
token, as in the source regex. -/
def claim_case_key_amended (text : String) : String :=
  let norm := subRuns isSpaceChar [' '] (toLowerL (pyStripL text.data))
  match searchTriple true norm with
  | some (vol, rep, page) =>
    String.mk (vol ++ '_' :: (rep.filter (fun c => !isSpaceDot c)) ++ '_' :: page)
  | none => String.mk (subRuns isSpaceDot ['_'] norm)

/-- Field agreement used by the frame property: two citations agreeing on
every field except possibly parent_key and category. -/
def frame_eq (a b : Citation) : Prop :=
  b.full_text = a.full_text ∧ b.display_name = a.display_name ∧
  b.pages = a.pages ∧ b.is_primary = a.is_primary ∧
  b.is_short_form = a.is_short_form ∧ b.normalized_key = a.normalized_key ∧
  b.confidence = a.confidence ∧ b.sort_key = a.sort_key

theorem frame_eq_refl (a : Citation) : frame_eq a a :=
  ⟨rfl, rfl, rfl, rfl, rfl, rfl, rfl, rfl⟩

theorem frame_eq_set (a : Citation) (k : Option String) (cat : CitationCategory) :
    frame_eq a { a with parent_key := k, category := cat } :=
  ⟨rfl, rfl, rfl, rfl, rfl, rfl, rfl, rfl⟩

theorem supraLoop_cases (name : List Char) (sc : Citation) (l : List Citation) :
    supraLoop name sc l = sc ∨
    ∃ fc ∈ l, supraLoop name sc l =
      { sc with parent_key := some fc.normalized_key, category := fc.category } := by
  induction l with
  | nil => exact Or.inl rfl
  | cons fc rest ih =>
    by_cases h : (listContainsSub (first_party fc) name || listLeads name (first_party fc)) = true
    · right
      exact ⟨fc, List.mem_cons_self fc rest, by rw [supraLoop, if_pos h]⟩
    · rw [supraLoop, if_neg h]
      rcases ih with h1 | ⟨fc2, hm, he⟩
      · exact Or.inl h1
      · exact Or.inr ⟨fc2, List.mem_cons_of_mem fc hm, he⟩

theorem pincLoop_cases (vol rep : List Char) (sc : Citation) (l : List Citation) :
    pincLoop vol rep sc l = sc ∨
    ∃ fc ∈ l, pincLoop vol rep sc l =
      { sc with parent_key := some fc.normalized_key, category := fc.category } := by
  induction l with
  | nil => exact Or.inl rfl
  | cons fc rest ih =>
    rw [pincLoop]
    cases hsv : searchVolRep fc.full_text.data with
    | none =>
      rcases ih with h1 | ⟨fc2, hm, he⟩
      · exact Or.inl h1
      · exact Or.inr ⟨fc2, List.mem_cons_of_mem fc hm, he⟩
    | some pr =>
      obtain ⟨fv, fr⟩ := pr
      dsimp only
      by_cases h : (fv == vol && stripDotsLower fr == rep) = true
      · exact Or.inr ⟨fc, List.mem_cons_self fc rest, by rw [if_pos h]⟩
      · rw [if_neg h]
        rcases ih with h1 | ⟨fc2, hm, he⟩
        · exact Or.inl h1
        · exact Or.inr ⟨fc2, List.mem_cons_of_mem fc hm, he⟩

theorem lastLE_mem (p : Nat) (l : List Citation) (best : Option Citation) (fc : Citation)
    (h : lastLE p l best = some fc) : fc ∈ l ∨ best = some fc := by
  induction l generalizing best with
  | nil => exact Or.inr h
  | cons x rest ih =>
    rw [lastLE] at h
    by_cases hx : min_pages x.pages ≤ p
    · rw [if_pos hx] at h
      rcases ih (some x) h with hm | hb
      · exact Or.inl (List.mem_cons_of_mem x hm)
      · exact Or.inl (by rw [Option.some_inj] at hb; rw [← hb]; exact List.mem_cons_self x rest)
    · rw [if_neg hx] at h
      exact Or.inr h

theorem resolve_one_cases (fulls ordered : List Citation) (sc : Citation) :
    resolve_one fulls ordered sc = sc ∨
    ∃ fc, (fc ∈ fulls ∨ fc ∈ ordered) ∧ resolve_one fulls ordered sc =
      { sc with parent_key := some fc.normalized_key, category := fc.category } := by
  unfold resolve_one
  by_cases h1 : is_id_cite (pyStrip sc.full_text) = true
  · rw [if_pos h1]
    unfold resolve_id
    cases hb : lastLE (min_pages sc.pages) ordered none with
    | none => exact Or.inl rfl
    | some best =>
      rcases lastLE_mem _ _ _ _ hb with hm | hcon
      · exact Or.inr ⟨best, Or.inr hm, rfl⟩
      · exact absurd hcon (by simp)
  · rw [if_neg h1]
    by_cases h2 : is_supra_cite (pyStrip sc.full_text) = true
    · rw [if_pos h2]
      unfold resolve_supra
      cases matchSupraName (pyStrip sc.full_text).data with
      | none => exact Or.inl rfl
      | some nm =>
        rcases supraLoop_cases (toLowerL nm) sc ordered with hc | ⟨fc, hm, he⟩
        · exact Or.inl hc
        · exact Or.inr ⟨fc, Or.inr hm, he⟩
    · rw [if_neg h2]
      unfold resolve_short_pincite
      cases anchoredVolRep (pyStrip sc.full_text).data with
      | none => exact Or.inl rfl
      | some pr =>
        rcases pincLoop_cases pr.1 (stripDotsLower pr.2) sc fulls with hc | ⟨fc, hm, he⟩
        · exact Or.inl hc
        · exact Or.inr ⟨fc, Or.inl hm, he⟩

theorem resolve_one_frame (fulls ordered : List Citation) (sc : Citation) :
    frame_eq sc (resolve_one fulls ordered sc) := by
  rcases resolve_one_cases fulls ordered sc with h | ⟨fc, _, h⟩
  · rw [h]; exact frame_eq_refl sc
  · rw [h]; exact frame_eq_set sc _ _

theorem forall₂_map_self {R : Citation → Citation → Prop} (f : Citation → Citation)
    (l : List Citation) (h : ∀ x ∈ l, R x (f x)) : List.Forall₂ R l (l.map f) := by
  induction l with
  | nil => simp
  | cons x t ih =>
    rw [List.map_cons]
    exact List.Forall₂.cons (h x (List.mem_cons_self x t))
      (ih (fun y hy => h y (List.mem_cons_of_mem x hy)))

/-- C10: resolve_short_forms never mutates any full citation, and on the
short citations it assigns only parent_key and category, every other field
being returned unchanged. -/
theorem resolve_short_forms_frame (fulls shorts : List Citation) :
    (resolve_short_forms fulls shorts).1 = fulls ∧
    List.Forall₂ frame_eq shorts (resolve_short_forms fulls shorts).2 := by
  unfold resolve_short_forms
  by_cases h : (fulls.isEmpty || shorts.isEmpty) = true
  · rw [if_pos h]
    exact ⟨rfl, List.forall₂_same.mpr (fun c _ => frame_eq_refl c)⟩
  · rw [if_neg h]
    exact ⟨rfl, forall₂_map_self _ shorts
      (fun sc _ => resolve_one_frame fulls (ordered_fulls fulls) sc)⟩

theorem reclassify_one_idem (tre lrev : String → Bool) (c : Citation) :
    reclassify_one tre lrev (reclassify_one tre lrev c) = reclassify_one tre lrev c := by
  by_cases h1 : c.is_short_form
  · simp [reclassify_one, h1]
  · by_cases h2 : c.category = .CASES ∧ tre c.full_text
    · simp [reclassify_one, h1, h2]
    · by_cases h3 : c.category = .CASES ∧ lrev c.full_text
      · simp [reclassify_one, h1, h2, h3]
      · by_cases h4 : c.category = .CASES ∧ has_v_marker c.full_text = false ∧
            in_re_match c.full_text = false
        · obtain ⟨hc, hv, hr⟩ := h4
          have htre : ¬ tre c.full_text = true := fun ht => h2 ⟨hc, ht⟩
          have hlrev : ¬ lrev c.full_text = true := fun ht => h3 ⟨hc, ht⟩
          simp [reclassify_one, h1, hc, hv, hr, htre, hlrev]
        · simp [reclassify_one, h1, h2, h3, h4]

/-- C9: the rule-based reclassification pass is idempotent; rerunning
reclassify over its own output changes nothing, for every choice of the
treatise and law-review text predicates. -/
theorem reclassify_idem (tre lrev : String → Bool) (cs : List Citation) :
    reclassify tre lrev (reclassify tre lrev cs) = reclassify tre lrev cs := by
  unfold reclassify
  rw [List.map_map]
  exact List.map_congr_left (fun c _ => reclassify_one_idem tre lrev c)

theorem keepLoop_clear (l : List RawMatch) :
    ∀ occ : List (Nat × Nat), ∀ a ∈ keepLoop l occ, ∀ o ∈ occ,
      ¬(a.start < o.2 ∧ a.endPos > o.1) := by
  induction l with
  | nil => intro occ a ha; simp [keepLoop] at ha
  | cons m rest ih =>
    intro occ a ha o ho
    by_cases h : overlapsAny m occ = true
    · rw [keepLoop, if_pos h] at ha
      exact ih occ a ha o ho
    · rw [keepLoop, if_neg h] at ha
      rcases List.mem_cons.mp ha with rfl | ha2
      · have h' := (List.any_eq_false.mp (Bool.not_eq_true _ ▸ h)) o ho
        intro hcon
        simp only [Bool.and_eq_true, decide_eq_true_eq] at h'
        exact h' ⟨hcon.1, hcon.2⟩
      · exact ih (occ ++ [(m.start, m.endPos)]) a ha2 o (List.mem_append_left _ ho)

theorem keepLoop_pairwise (l : List RawMatch) :
    ∀ occ : List (Nat × Nat),
      List.Pairwise (fun a b => ¬(a.start < b.endPos ∧ a.endPos > b.start)) (keepLoop l occ) := by
  induction l with
  | nil => intro occ; simp [keepLoop]
  | cons m rest ih =>
    intro occ
    by_cases h : overlapsAny m occ = true
    · rw [keepLoop, if_pos h]; exact ih occ
    · rw [keepLoop, if_neg h]
      refine List.Pairwise.cons ?_ (ih _)
      intro b hb
      have hclear := keepLoop_clear rest (occ ++ [(m.start, m.endPos)]) b hb
        (m.start, m.endPos) (List.mem_append_right _ (List.mem_singleton_self _))
      intro hcon
      exact hclear ⟨hcon.2, hcon.1⟩

/-- C2: after overlap resolution no two accepted matches have intersecting
half-open intervals, where intervals intersect exactly when
start < other end and end > other start. -/
theorem remove_overlaps_no_intersect (ms : List RawMatch) :
    List.Pairwise (fun a b => ¬(a.start < b.endPos ∧ a.endPos > b.start))
      (remove_overlaps ms) := by
  unfold remove_overlaps
  by_cases h : ms.isEmpty = true
  · rw [if_pos h]; exact List.Pairwise.nil
  · rw [if_neg h]
    have hperm := List.perm_insertionSort start_order
      (keepLoop (List.insertionSort raw_order ms) [])
    have hsym : ∀ {x y : RawMatch}, ¬(x.start < y.endPos ∧ x.endPos > y.start) →
        ¬(y.start < x.endPos ∧ y.endPos > x.start) := by
      intro x y hxy hcon
      exact hxy ⟨hcon.2, hcon.1⟩
    exact (hperm.pairwise_iff hsym).mpr (keepLoop_pairwise _ [])

theorem remove_overlaps_pair (a b : RawMatch)
    (hord : raw_order a b) (hstrict : ¬ raw_order b a)
    (hov : a.start < b.endPos ∧ a.endPos > b.start) :
    remove_overlaps [a, b] = [a] ∧ remove_overlaps [b, a] = [a] := by
  have hs1 : List.insertionSort raw_order [a, b] = [a, b] := by
    simp [List.insertionSort, List.orderedInsert, hord]
  have hs2 : List.insertionSort raw_order [b, a] = [a, b] := by
    simp [List.insertionSort, List.orderedInsert, hstrict]
  have hovb : overlapsAny b [(a.start, a.endPos)] = true := by
    simp only [overlapsAny, List.any_cons, List.any_nil, Bool.or_false,
      Bool.and_eq_true, decide_eq_true_eq]
    exact ⟨hov.2, hov.1⟩
  have hk : keepLoop [a, b] [] = [a] := by
    have hoa : overlapsAny a [] = false := rfl
    rw [keepLoop, if_neg (by rw [hoa]; exact Bool.false_ne_true)]
    rw [keepLoop]
    simp only [List.nil_append]
    rw [if_pos hovb, keepLoop]
  have hfin : List.insertionSort start_order [a] = [a] := rfl
  constructor
  · rw [remove_overlaps, if_neg (by simp), hs1, hk, hfin]
  · rw [remove_overlaps, if_neg (by simp), hs2, hk, hfin]

/-- C7: of two overlapping candidate matches, the longer survives overlap
resolution alone and the shorter is discarded, in either input order;
under equal lengths the match with the smaller start offset survives. -/
theorem remove_overlaps_length_preference (a b : RawMatch)
    (hov : a.start < b.endPos ∧ a.endPos > b.start) :
    (((b.endPos : Int) - (b.start : Int) < (a.endPos : Int) - (a.start : Int)) →
      remove_overlaps [a, b] = [a] ∧ remove_overlaps [b, a] = [a]) ∧
    (((a.endPos : Int) - (a.start : Int) = (b.endPos : Int) - (b.start : Int)) →
      a.start < b.start →
      remove_overlaps [a, b] = [a] ∧ remove_overlaps [b, a] = [a]) := by
  constructor
  · intro hlen
    refine remove_overlaps_pair a b (Or.inl hlen) ?_ hov
    intro hba
    rcases hba with hlt | ⟨heq, _⟩
    · exact absurd hlen (Int.lt_asymm hlt)
    · exact absurd heq (Int.ne_of_lt hlen)
  · intro heq hstart
    refine remove_overlaps_pair a b (Or.inr ⟨heq, Nat.le_of_lt hstart⟩) ?_ hov
    intro hba
    rcases hba with hlt | ⟨_, hle⟩
    · exact absurd heq (Int.ne_of_lt hlt)
    · exact absurd hle (Nat.not_le_of_lt hstart)

/-- Concrete raw match used by the C7 witness. -/
def wMatch (s e : Nat) : RawMatch :=
  { text := "w", start := s, endPos := e, page := 1,
    pattern_name := "case_full", category := .CASES }

/-- Witness for C7: a longer match beats a contained shorter one in both
input orders, and under equal lengths the earlier start wins. -/
theorem remove_overlaps_length_preference_witness :
    ((remove_overlaps [wMatch 0 20, wMatch 5 15] = [wMatch 0 20] ∧
      remove_overlaps [wMatch 5 15, wMatch 0 20] = [wMatch 0 20]) ∧
     (remove_overlaps [wMatch 0 10, wMatch 5 15] = [wMatch 0 10] ∧
      remove_overlaps [wMatch 5 15, wMatch 0 10] = [wMatch 0 10])) :=
  ⟨(remove_overlaps_length_preference (wMatch 0 20) (wMatch 5 15)
      ⟨by decide, by decide⟩).1 (by decide),
   (remove_overlaps_length_preference (wMatch 0 10) (wMatch 5 15)
      ⟨by decide, by decide⟩).2 (by decide) (by decide)⟩

/-- Counterexample to C5 as stated: on a Federal Supplement citation the
source normalizer extracts a triple with its own regex, which allows
whitespace after interior periods of the reporter token, while the triple
regex written in the claim does not match there, so the claim predicts the
generic fallback key; the two keys differ. -/
theorem case_key_claim_counterexample :
    normalize "State v. Roe, 12 F. Supp. 2d 34" "case_full" = "12_fsupp_2" ∧
    claim_case_key "State v. Roe, 12 F. Supp. 2d 34" = "state_v_roe,_12_f_supp_2d_34" ∧
    normalize "State v. Roe, 12 F. Supp. 2d 34" "case_full" ≠
      claim_case_key "State v. Roe, 12 F. Supp. 2d 34" := by
  refine ⟨?_, ?_, ?_⟩ <;> decide

theorem listLeads_case_not_statute (l : List Char) (h : listLeads caseTag l = true) :
    listLeads statuteTag l = false := by
  cases l with
  | nil => simp [caseTag, listLeads] at h
  | cons c t =>
    simp only [caseTag, listLeads] at h
    by_cases hc : 'c' = c
    · simp only [statuteTag, listLeads,
        if_neg (show ¬('s' = c) from by rw [← hc]; decide)]
    · rw [if_neg hc] at h
      exact absurd h Bool.false_ne_true

/-- C5 (amended): for every match produced by a case pattern, the source
normalizer computes exactly the claim key computation once the triple
regex is amended to allow whitespace after each interior period of the
reporter token; the concrete example of the claim holds as stated. -/
theorem case_key_amended_claim (name text : String)
    (h : listLeads caseTag name.data = true) :
    normalize text name = claim_case_key_amended text ∧
    normalize "Smith v. Jones, 123 F.3d 456 (6th Cir. 2020)" "case_full" = "123_f3d_456" := by
  refine ⟨?_, by decide⟩
  unfold normalize claim_case_key_amended
  simp only [h, if_true]
  cases hst : searchTriple true (subRuns isSpaceChar [' '] (toLowerL (pyStripL text.data))) with
  | some tri =>
    obtain ⟨vol, rep, page⟩ := tri
    rfl
  | none =>
    simp only
    rw [if_neg (by rw [listLeads_case_not_statute name.data h]; exact Bool.false_ne_true)]
    split_ifs <;> rfl

/-- Witness for C5 (amended) at a concrete case pattern name and text. -/
theorem case_key_amended_claim_witness :
    (normalize "State v. Roe, 12 F. Supp. 2d 34" "case_full" =
      claim_case_key_amended "State v. Roe, 12 F. Supp. 2d 34") ∧
    normalize "Smith v. Jones, 123 F.3d 456 (6th Cir. 2020)" "case_full" = "123_f3d_456" :=
  case_key_amended_claim "case_full" "State v. Roe, 12 F. Supp. 2d 34" (by decide)

/-- The last element of a list, used to state the claim reading of the
Id. resolution target. -/
def lastOf : List Citation → Option Citation
  | [] => none
  | [fc] => some fc
  | _ :: fc :: rest => lastOf (fc :: rest)

/-- The first element satisfying a Boolean predicate, used to state the
claim reading of the supra and short-pincite resolution targets. -/
def findFirst (q : Citation → Bool) : List Citation → Option Citation
  | [] => none
  | fc :: rest => if q fc then some fc else findFirst q rest

theorem lastOf_ne_none (fc : Citation) (t : List Citation) : lastOf (fc :: t) ≠ none := by
  induction t generalizing fc with
  | nil => simp [lastOf]
  | cons y r ih => exact ih y

theorem lastOf_cons (fc : Citation) (t : List Citation) :
    lastOf (fc :: t) = match lastOf t with
      | some x => some x
      | none => some fc := by
  cases t with
  | nil => rfl
  | cons y r =>
    cases h : lastOf (y :: r) with
    | some x => exact h
    | none => exact absurd h (lastOf_ne_none y r)

theorem ordered_fulls_sorted (fulls : List Citation) :
    List.Sorted page_order (ordered_fulls fulls) := by
  haveI : IsTotal Citation page_order := ⟨fun a b => Nat.le_total _ _⟩
  haveI : IsTrans Citation page_order := ⟨fun a b c hab hbc => Nat.le_trans hab hbc⟩
  exact List.sorted_insertionSort page_order fulls

theorem lastLE_filter (p : Nat) (l : List Citation) (hs : List.Sorted page_order l) :
    ∀ best : Option Citation,
      lastLE p l best =
        match lastOf (l.filter (fun fc => decide (min_pages fc.pages ≤ p))) with
        | some x => some x
        | none => best := by
  induction l with
  | nil => intro best; rfl
  | cons fc t ih =>
    intro best
    rw [List.sorted_cons] at hs
    by_cases h : min_pages fc.pages ≤ p
    · rw [lastLE, if_pos h, ih hs.2 (some fc), List.filter_cons,
        if_pos (decide_eq_true h), lastOf_cons]
      cases lastOf (t.filter (fun fc => decide (min_pages fc.pages ≤ p))) <;> rfl
    · have hnil : t.filter (fun fc => decide (min_pages fc.pages ≤ p)) = [] := by
        rw [List.filter_eq_nil_iff]
        intro x hx
        have hfcx : page_order fc x := hs.1 x hx
        simp only [decide_eq_true_eq]
        intro hxp
        exact h (Nat.le_trans hfcx hxp)
      rw [lastLE, if_neg h, List.filter_cons, if_neg (by simpa using h), hnil]
      rfl

theorem resolve_short_forms_map (fulls shorts : List Citation)
    (hf : fulls ≠ []) (hs : shorts ≠ []) :
    (resolve_short_forms fulls shorts).2 =
      shorts.map (resolve_one fulls (ordered_fulls fulls)) := by
  unfold resolve_short_forms
  rw [if_neg (by simp [List.isEmpty_iff, hf, hs])]

/-- C4: a short form whose stripped text begins case-insensitively with
Id. or Ibid. is resolved to the last full citation, in the ascending
minimum-page ordering of the full citations, whose minimum page is at
most the short form's minimum page, receiving that citation's
normalized_key as parent_key and its category; when no full citation has
minimum page at most the short form's, the short form is left unchanged. -/
theorem resolve_id_claim (fulls shorts : List Citation) (sc : Citation)
    (hf : fulls ≠ []) (hsc : sc ∈ shorts)
    (hid : is_id_cite (pyStrip sc.full_text) = true) :
    (resolve_short_forms fulls shorts).2 =
      shorts.map (resolve_one fulls (ordered_fulls fulls)) ∧
    resolve_one fulls (ordered_fulls fulls) sc =
      (match lastOf ((ordered_fulls fulls).filter
          (fun fc => decide (min_pages fc.pages ≤ min_pages sc.pages))) with
       | some best => { sc with
                        parent_key := some best.normalized_key
                        category := best.category }
       | none => sc) := by
  refine ⟨resolve_short_forms_map fulls shorts hf (List.ne_nil_of_mem hsc), ?_⟩
  simp only [resolve_one]
  rw [if_pos hid]
  unfold resolve_id
  rw [lastLE_filter (min_pages sc.pages) (ordered_fulls fulls) (ordered_fulls_sorted fulls) none]
  cases lastOf ((ordered_fulls fulls).filter
      (fun fc => decide (min_pages fc.pages ≤ min_pages sc.pages))) <;> rfl

theorem pincLoop_find (vol rep : List Char) (sc : Citation) (l : List Citation) :
    pincLoop vol rep sc l =
      match findFirst (fun fc =>
          match searchVolRep fc.full_text.data with
          | some fpr => fpr.1 == vol && stripDotsLower fpr.2 == rep
          | none => false) l with
      | some fc => { sc with parent_key := some fc.normalized_key, category := fc.category }
      | none => sc := by
  induction l with
  | nil => rfl
  | cons fc rest ih =>
    rw [pincLoop, findFirst]
    cases hsv : searchVolRep fc.full_text.data with
    | none =>
      rw [if_neg (by dsimp only; exact Bool.false_ne_true)]
      exact ih
    | some pr =>
      obtain ⟨fv, fr⟩ := pr
      by_cases h : (fv == vol && stripDotsLower fr == rep) = true
      · rw [if_pos (by dsimp only; exact h)]
        dsimp only
        rw [if_pos h]
      · rw [if_neg (by dsimp only; exact h)]
        dsimp only
        rw [if_neg h]
        exact ih

/-- C6: a short form that is neither an Id./Ibid. form nor a supra form is
resolved through the leading volume and reporter pair of its stripped
text, against the first full citation whose own first volume and reporter
pair matches it exactly after stripping whitespace and periods and
lowercasing, receiving that citation's normalized_key and category; with
no leading pair or no matching full citation it is left unchanged. -/
theorem resolve_pincite_claim (fulls shorts : List Citation) (sc : Citation)
    (hf : fulls ≠ []) (hsc : sc ∈ shorts)
    (hnid : is_id_cite (pyStrip sc.full_text) = false)
    (hnsup : is_supra_cite (pyStrip sc.full_text) = false) :
    (resolve_short_forms fulls shorts).2 =
      shorts.map (resolve_one fulls (ordered_fulls fulls)) ∧
    resolve_one fulls (ordered_fulls fulls) sc =
      (match anchoredVolRep (pyStrip sc.full_text).data with
       | none => sc
       | some pr =>
         match findFirst (fun fc =>
             match searchVolRep fc.full_text.data with
             | some fpr => fpr.1 == pr.1 && stripDotsLower fpr.2 == stripDotsLower pr.2
             | none => false) fulls with
         | some fc => { sc with
                        parent_key := some fc.normalized_key
                        category := fc.category }
         | none => sc) := by
  refine ⟨resolve_short_forms_map fulls shorts hf (List.ne_nil_of_mem hsc), ?_⟩
  simp only [resolve_one]
  rw [if_neg (by rw [hnid]; exact Bool.false_ne_true),
    if_neg (by rw [hnsup]; exact Bool.false_ne_true)]
  unfold resolve_short_pincite
  cases anchoredVolRep (pyStrip sc.full_text).data with
  | none => rfl
  | some pr =>
    obtain ⟨vol, rep⟩ := pr
    dsimp only
    exact pincLoop_find vol (stripDotsLower rep) sc fulls

/-- Concrete full citation used by the resolver witnesses. -/
def wFullCite : Citation :=
  { full_text := "Smith v. Jones, 123 F.3d 456 (6th Cir. 2020)"
    display_name := "Smith v. Jones, 123 F.3d 456 (6th Cir. 2020)"
    category := .CASES
    pages := [1]
    normalized_key := "123_f3d_456" }

/-- Concrete Id. short form used by the C4 witness. -/
def wIdCite : Citation :=
  { full_text := "Id. at 460."
    display_name := "Id. at 460."
    category := .CASES
    pages := [2]
    is_short_form := true }

/-- Witness for C4 at one full citation and one Id. short form. -/
theorem resolve_id_claim_witness :
    (resolve_short_forms [wFullCite] [wIdCite]).2 =
      [wIdCite].map (resolve_one [wFullCite] (ordered_fulls [wFullCite])) ∧
    resolve_one [wFullCite] (ordered_fulls [wFullCite]) wIdCite =
      (match lastOf ((ordered_fulls [wFullCite]).filter
          (fun fc => decide (min_pages fc.pages ≤ min_pages wIdCite.pages))) with
       | some best => { wIdCite with
                        parent_key := some best.normalized_key
                        category := best.category }
       | none => wIdCite) :=
  resolve_id_claim [wFullCite] [wIdCite] wIdCite (List.cons_ne_nil _ _)
    (List.mem_singleton_self _) (by decide)

/-- Concrete short pincite used by the C6 witness. -/
def wPinCite : Citation :=
  { full_text := "123 F.3d at 460"
    display_name := "123 F.3d at 460"
    category := .CASES
    pages := [6]
    is_short_form := true }

/-- Witness for C6 at one full citation and one short pincite. -/
theorem resolve_pincite_claim_witness :
    (resolve_short_forms [wFullCite] [wPinCite]).2 =
      [wPinCite].map (resolve_one [wFullCite] (ordered_fulls [wFullCite])) ∧
    resolve_one [wFullCite] (ordered_fulls [wFullCite]) wPinCite =
      (match anchoredVolRep (pyStrip wPinCite.full_text).data with
       | none => wPinCite
       | some pr =>
         match findFirst (fun fc =>
             match searchVolRep fc.full_text.data with
             | some fpr => fpr.1 == pr.1 && stripDotsLower fpr.2 == stripDotsLower pr.2
             | none => false) [wFullCite] with
         | some fc => { wPinCite with
                        parent_key := some fc.normalized_key
                        category := fc.category }
         | none => wPinCite) :=
  resolve_pincite_claim [wFullCite] [wPinCite] wPinCite (List.cons_ne_nil _ _)
    (List.mem_singleton_self _) (by decide) (by decide)

theorem sortNat_perm (l : List Nat) : List.Perm (sortNat l) l :=
  List.perm_insertionSort _ l

theorem sortNat_sorted (l : List Nat) : List.Sorted (· ≤ ·) (sortNat l) :=
  List.sorted_insertionSort _ l

theorem sortNat_nodup (l : List Nat) (h : l.Nodup) : (sortNat l).Nodup :=
  (sortNat_perm l).nodup_iff.mpr h

theorem mem_sortNat (q : Nat) (l : List Nat) : q ∈ sortNat l ↔ q ∈ l :=
  (sortNat_perm l).mem_iff

theorem mem_foldl_dedup (ps : List Nat) : ∀ acc q,
    (q ∈ ps.foldl (fun acc p => if p ∈ acc then acc else acc ++ [p]) acc ↔
      q ∈ acc ∨ q ∈ ps) := by
  induction ps with
  | nil => simp
  | cons p t ih =>
    intro acc q
    rw [List.foldl_cons]
    by_cases h : p ∈ acc
    · rw [if_pos h, ih]
      constructor
      · rintro (hq | hq)
        · exact Or.inl hq
        · exact Or.inr (List.mem_cons_of_mem _ hq)
      · rintro (hq | hq)
        · exact Or.inl hq
        · rcases List.mem_cons.mp hq with rfl | hq2
          · exact Or.inl h
          · exact Or.inr hq2
    · rw [if_neg h, ih]
      simp only [List.mem_append, List.mem_singleton, List.mem_cons]
      tauto

theorem nodup_foldl_dedup (ps : List Nat) : ∀ acc, acc.Nodup →
    (ps.foldl (fun acc p => if p ∈ acc then acc else acc ++ [p]) acc).Nodup := by
  induction ps with
  | nil => intro acc h; exact h
  | cons p t ih =>
    intro acc h
    rw [List.foldl_cons]
    by_cases hp : p ∈ acc
    · rw [if_pos hp]; exact ih acc h
    · rw [if_neg hp]
      refine ih _ ?_
      have hperm : List.Perm (acc ++ [p]) (p :: acc) := List.perm_append_singleton p acc
      exact hperm.nodup_iff.mpr (List.nodup_cons.mpr ⟨hp, h⟩)

theorem merge_pages_spec (a b : Citation) (h : a.pages.Nodup) :
    List.Sorted (· ≤ ·) (merge_pages a b).pages ∧ (merge_pages a b).pages.Nodup ∧
    (∀ q, q ∈ (merge_pages a b).pages ↔ q ∈ a.pages ∨ q ∈ b.pages) ∧
    merge_pages a b = { a with pages := (merge_pages a b).pages } := by
  refine ⟨sortNat_sorted _, sortNat_nodup _ (nodup_foldl_dedup b.pages a.pages h), ?_, rfl⟩
  intro q
  exact (mem_sortNat q _).trans (mem_foldl_dedup b.pages a.pages q)

theorem mem_add_page (pages : List Nat) (p q : Nat) :
    q ∈ add_page pages p ↔ q ∈ pages ∨ q = p := by
  unfold add_page
  by_cases h : p ∈ pages
  · rw [if_pos h]
    exact ⟨Or.inl, fun hq => by rcases hq with hq | rfl; exacts [hq, h]⟩
  · rw [if_neg h, mem_sortNat, List.mem_append, List.mem_singleton]

theorem add_page_sorted_nodup (pages : List Nat) (p : Nat)
    (hs : List.Sorted (· ≤ ·) pages) (hn : pages.Nodup) :
    List.Sorted (· ≤ ·) (add_page pages p) ∧ (add_page pages p).Nodup := by
  unfold add_page
  by_cases h : p ∈ pages
  · rw [if_pos h]; exact ⟨hs, hn⟩
  · rw [if_neg h]
    refine ⟨sortNat_sorted _, sortNat_nodup _ ?_⟩
    have hperm : List.Perm (pages ++ [p]) (p :: pages) := List.perm_append_singleton p pages
    exact hperm.nodup_iff.mpr (List.nodup_cons.mpr ⟨h, hn⟩)

theorem mem_foldl_add_page (ps : List Nat) : ∀ pages q,
    (q ∈ ps.foldl add_page pages ↔ q ∈ pages ∨ q ∈ ps) := by
  induction ps with
  | nil => simp
  | cons p t ih =>
    intro pages q
    rw [List.foldl_cons, ih, mem_add_page]
    simp only [List.mem_cons]
    tauto

theorem foldl_add_page_sorted_nodup (ps : List Nat) : ∀ pages,
    List.Sorted (· ≤ ·) pages → pages.Nodup →
    List.Sorted (· ≤ ·) (ps.foldl add_page pages) ∧ (ps.foldl add_page pages).Nodup := by
  induction ps with
  | nil => intro pages hs hn; exact ⟨hs, hn⟩
  | cons p t ih =>
    intro pages hs hn
    rw [List.foldl_cons]
    obtain ⟨hs2, hn2⟩ := add_page_sorted_nodup pages p hs hn
    exact ih _ hs2 hn2

/-- C8: page lists are sorted ascending and duplicate-free after each
engine operation touching pages: creation by the citation builder,
Citation.merge_pages (which moreover never removes a page already present
in the receiving citation), and the short-form page absorption inside
detect. -/
theorem pages_invariant :
    (∀ ms : List RawMatch, ∀ c ∈ to_citations ms,
      List.Sorted (· ≤ ·) c.pages ∧ c.pages.Nodup) ∧
    (∀ a b : Citation, List.Sorted (· ≤ ·) a.pages → a.pages.Nodup →
      List.Sorted (· ≤ ·) (merge_pages a b).pages ∧ (merge_pages a b).pages.Nodup ∧
      ∀ p ∈ a.pages, p ∈ (merge_pages a b).pages) ∧
    (∀ sps pages : List Nat, List.Sorted (· ≤ ·) pages → pages.Nodup →
      List.Sorted (· ≤ ·) (sps.foldl add_page pages) ∧
      (sps.foldl add_page pages).Nodup ∧
      ∀ p ∈ pages, p ∈ sps.foldl add_page pages) := by
  refine ⟨?_, ?_, ?_⟩
  · intro ms c hc
    obtain ⟨m, _, rfl⟩ := List.mem_map.mp hc
    exact ⟨List.sorted_singleton _, List.nodup_singleton _⟩
  · intro a b _ hn
    obtain ⟨h1, h2, h3, _⟩ := merge_pages_spec a b hn
    exact ⟨h1, h2, fun p hp => (h3 p).mpr (Or.inl hp)⟩
  · intro sps pages hs hn
    obtain ⟨h1, h2⟩ := foldl_add_page_sorted_nodup sps pages hs hn
    exact ⟨h1, h2, fun p hp => (mem_foldl_add_page sps pages p).mpr (Or.inl hp)⟩

/-- The citation built from the single-character witness match. -/
def wBuiltCite : Citation :=
  { full_text := "w"
    display_name := "w"
    category := .CASES
    pages := [1]
    normalized_key := "w" }

/-- Witness for C8 at concrete citations and page lists. -/
theorem pages_invariant_witness :
    (List.Sorted (· ≤ ·) wBuiltCite.pages ∧ wBuiltCite.pages.Nodup) ∧
    (List.Sorted (· ≤ ·) (merge_pages wFullCite wIdCite).pages ∧
      (merge_pages wFullCite wIdCite).pages.Nodup ∧
      ∀ p ∈ wFullCite.pages, p ∈ (merge_pages wFullCite wIdCite).pages) ∧
    (List.Sorted (· ≤ ·) ([5, 2].foldl add_page [1, 3]) ∧
      ([5, 2].foldl add_page [1, 3]).Nodup ∧
      ∀ p ∈ [1, 3], p ∈ [5, 2].foldl add_page [1, 3]) :=
  ⟨pages_invariant.1 [wMatch 1 2] wBuiltCite (by decide),
   pages_invariant.2.1 wFullCite wIdCite (by decide) (by decide),
   pages_invariant.2.2 [5, 2] [1, 3] (by decide) (by decide)⟩

theorem lookup_updateAssoc (m : List (String × Citation)) (kc : String)
    (f : Citation → Citation) (k : String) :
    lookupAssoc (updateAssoc m kc f) k =
      if k = kc then (lookupAssoc m k).map f else lookupAssoc m k := by
  induction m with
  | nil =>
    by_cases hk : k = kc
    · rw [if_pos hk]; rfl
    · rw [if_neg hk]; rfl
  | cons kv t ih =>
    rw [updateAssoc]
    by_cases h1 : kv.1 = kc
    · rw [if_pos h1, lookupAssoc, lookupAssoc]
      by_cases h2 : kv.1 = k
      · rw [if_pos h2, if_pos h2, if_pos (h2.symm.trans h1)]
        rfl
      · rw [if_neg h2, if_neg h2]
        by_cases h3 : k = kc
        · exact absurd (h1.trans h3.symm) h2
        · rw [if_neg h3]
    · rw [if_neg h1, lookupAssoc, lookupAssoc]
      by_cases h2 : kv.1 = k
      · rw [if_pos h2, if_pos h2]
        by_cases h3 : k = kc
        · exact absurd (h2.trans h3) h1
        · rw [if_neg h3]
      · rw [if_neg h2, if_neg h2, ih]

theorem lookup_append_single (m : List (String × Citation)) (kc : String)
    (c : Citation) (k : String) :
    lookupAssoc (m ++ [(kc, c)]) k =
      (match lookupAssoc m k with
       | some x => some x
       | none => if kc = k then some c else none) := by
  induction m with
  | nil =>
    rw [List.nil_append]
    rfl
  | cons kv t ih =>
    rw [List.cons_append, lookupAssoc, lookupAssoc]
    by_cases h2 : kv.1 = k
    · rw [if_pos h2, if_pos h2]
    · rw [if_neg h2, if_neg h2, ih]

theorem mem_updateAssoc (m : List (String × Citation)) (kc : String)
    (f : Citation → Citation) (kv : String × Citation)
    (h : kv ∈ updateAssoc m kc f) :
    kv ∈ m ∨ ∃ kv0 ∈ m, kv0.1 = kc ∧ kv = (kv0.1, f kv0.2) := by
  induction m with
  | nil => cases h
  | cons kv1 t ih =>
    rw [updateAssoc] at h
    by_cases h1 : kv1.1 = kc
    · rw [if_pos h1] at h
      rcases List.mem_cons.mp h with rfl | h2
      · exact Or.inr ⟨kv1, List.mem_cons_self _ _, h1, rfl⟩
      · exact Or.inl (List.mem_cons_of_mem _ h2)
    · rw [if_neg h1] at h
      rcases List.mem_cons.mp h with rfl | h2
      · exact Or.inl (List.mem_cons_self _ _)
      · rcases ih h2 with h3 | ⟨kv0, hm, hk, he⟩
        · exact Or.inl (List.mem_cons_of_mem _ h3)
        · exact Or.inr ⟨kv0, List.mem_cons_of_mem _ hm, hk, he⟩

theorem lookup_mem (m : List (String × Citation)) (k : String) (v : Citation)
    (h : lookupAssoc m k = some v) : (k, v) ∈ m := by
  induction m with
  | nil => cases h
  | cons kv t ih =>
    rw [lookupAssoc] at h
    by_cases hk : kv.1 = k
    · rw [if_pos hk] at h
      have hv : kv.2 = v := Option.some_inj.mp h
      have : (k, v) = kv := by
        rw [← hk, ← hv]
      rw [this]
      exact List.mem_cons_self _ _
    · rw [if_neg hk] at h
      exact List.mem_cons_of_mem _ (ih h)

/-- The key list of the association map. -/
def mapKeys (m : List (String × Citation)) : List String := m.map Prod.fst

theorem mapKeys_updateAssoc (m : List (String × Citation)) (kc : String)
    (f : Citation → Citation) : mapKeys (updateAssoc m kc f) = mapKeys m := by
  induction m with
  | nil => rfl
  | cons kv t ih =>
    rw [updateAssoc]
    by_cases h1 : kv.1 = kc
    · rw [if_pos h1]; rfl
    · rw [if_neg h1]
      simp only [mapKeys, List.map_cons] at ih ⊢
      rw [ih]

theorem mapKeys_append_single (m : List (String × Citation)) (kc : String) (c : Citation) :
    mapKeys (m ++ [(kc, c)]) = mapKeys m ++ [kc] := by
  simp [mapKeys]

theorem lookup_eq_none (m : List (String × Citation)) (k : String) :
    lookupAssoc m k = none ↔ k ∉ mapKeys m := by
  induction m with
  | nil => simp [lookupAssoc, mapKeys]
  | cons kv t ih =>
    rw [lookupAssoc]
    simp only [mapKeys, List.map_cons, List.mem_cons]
    by_cases hk : kv.1 = k
    · rw [if_pos hk]
      simp [hk]
    · rw [if_neg hk]
      rw [mapKeys] at ih
      rw [ih]
      constructor
      · intro h1 h2
        rcases h2 with h2 | h2
        · exact hk h2.symm
        · exact h1 h2
      · intro h1 h2
        exact h1 (Or.inr h2)

theorem lookup_buildKeyMap_some (cs : List Citation) :
    ∀ (m : List (String × Citation)) (k : String) (can : Citation),
      lookupAssoc m k = some can →
      lookupAssoc (buildKeyMap cs m) k =
        some ((cs.filter (fun c => decide (c.normalized_key = k))).foldl merge_pages can) := by
  induction cs with
  | nil =>
    intro m k can h
    rw [buildKeyMap, h]
    rfl
  | cons c cs' ih =>
    intro m k can h
    rw [buildKeyMap]
    cases hm : lookupAssoc m c.normalized_key with
    | some can0 =>
      by_cases hk : k = c.normalized_key
      · have hcan : can0 = can := by
          rw [← hk] at hm
          exact Option.some_inj.mp (hm.symm.trans h)
        subst hcan
        rw [List.filter_cons, if_pos (by rw [decide_eq_true_eq, hk])]
        rw [List.foldl_cons]
        refine ih _ k (merge_pages can0 c) ?_
        rw [lookup_updateAssoc, if_pos hk, h]
        rfl
      · rw [List.filter_cons, if_neg (by rw [decide_eq_true_eq]; exact fun he => hk (he.symm))]
        refine ih _ k can ?_
        rw [lookup_updateAssoc, if_neg hk, h]
    | none =>
      by_cases hk : k = c.normalized_key
      · rw [← hk] at hm
        rw [h] at hm
        cases hm
      · rw [List.filter_cons, if_neg (by rw [decide_eq_true_eq]; exact fun he => hk (he.symm))]
        refine ih _ k can ?_
        rw [lookup_append_single, h]

theorem lookup_buildKeyMap_none (cs : List Citation) :
    ∀ (m : List (String × Citation)) (k : String),
      lookupAssoc m k = none →
      lookupAssoc (buildKeyMap cs m) k =
        (match cs.filter (fun c => decide (c.normalized_key = k)) with
         | [] => none
         | c :: r => some (r.foldl merge_pages c)) := by
  induction cs with
  | nil =>
    intro m k h
    rw [buildKeyMap, h]
    rfl
  | cons c cs' ih =>
    intro m k h
    rw [buildKeyMap]
    cases hm : lookupAssoc m c.normalized_key with
    | some can0 =>
      by_cases hk : k = c.normalized_key
      · rw [← hk] at hm
        rw [h] at hm
        cases hm
      · rw [List.filter_cons, if_neg (by rw [decide_eq_true_eq]; exact fun he => hk (he.symm))]
        refine ih _ k ?_
        rw [lookup_updateAssoc, if_neg hk, h]
    | none =>
      by_cases hk : k = c.normalized_key
      · rw [List.filter_cons, if_pos (by rw [decide_eq_true_eq, hk])]
        dsimp only
        refine lookup_buildKeyMap_some cs' _ k c ?_
        rw [lookup_append_single, h, if_pos hk.symm]
      · rw [List.filter_cons, if_neg (by rw [decide_eq_true_eq]; exact fun he => hk (he.symm))]
        refine ih _ k ?_
        rw [lookup_append_single, h, if_neg (fun he => hk he.symm)]

theorem buildKeyMap_inv (cs : List Citation) :
    ∀ m, (∀ kv ∈ m, kv.2.normalized_key = kv.1 ∧ kv.2.is_short_form = false) →
      (∀ c ∈ cs, c.is_short_form = false) →
      ∀ kv ∈ buildKeyMap cs m, kv.2.normalized_key = kv.1 ∧ kv.2.is_short_form = false := by
  induction cs with
  | nil => intro m hm _ kv hkv; exact hm kv hkv
  | cons c cs' ih =>
    intro m hm hcs kv hkv
    rw [buildKeyMap] at hkv
    cases hl : lookupAssoc m c.normalized_key with
    | some can =>
      rw [hl] at hkv
      refine ih _ ?_ (fun x hx => hcs x (List.mem_cons_of_mem c hx)) kv hkv
      intro kv0 hkv0
      rcases mem_updateAssoc _ _ _ kv0 hkv0 with h1 | ⟨kv1, hkv1, _, rfl⟩
      · exact hm kv0 h1
      · obtain ⟨ha, hb⟩ := hm kv1 hkv1
        exact ⟨ha, hb⟩
    | none =>
      rw [hl] at hkv
      refine ih _ ?_ (fun x hx => hcs x (List.mem_cons_of_mem c hx)) kv hkv
      intro kv0 hkv0
      rcases List.mem_append.mp hkv0 with h1 | h1
      · exact hm kv0 h1
      · rw [List.mem_singleton.mp h1]
        exact ⟨rfl, hcs c (List.mem_cons_self c cs')⟩

theorem buildKeyMap_keys_nodup (cs : List Citation) :
    ∀ m, (mapKeys m).Nodup → (mapKeys (buildKeyMap cs m)).Nodup := by
  induction cs with
  | nil => exact fun m h => h
  | cons c cs' ih =>
    intro m h
    rw [buildKeyMap]
    cases hl : lookupAssoc m c.normalized_key with
    | some can =>
      refine ih _ ?_
      rw [mapKeys_updateAssoc]
      exact h
    | none =>
      refine ih _ ?_
      rw [mapKeys_append_single]
      have hk : c.normalized_key ∉ mapKeys m := (lookup_eq_none m _).mp hl
      have hperm : List.Perm (mapKeys m ++ [c.normalized_key])
          (c.normalized_key :: mapKeys m) := List.perm_append_singleton _ _
      exact hperm.nodup_iff.mpr (List.nodup_cons.mpr ⟨hk, h⟩)

theorem absorbOne_lookup_mono (m : List (String × Citation)) (s : Citation) (k : String)
    (can : Citation) (h : lookupAssoc m k = some can) :
    ∃ can1, lookupAssoc (absorbOne m s) k = some can1 ∧
      ∀ q ∈ can.pages, q ∈ can1.pages := by
  rw [absorbOne]
  cases hp : s.parent_key with
  | none => exact ⟨can, h, fun q hq => hq⟩
  | some kp =>
    dsimp only
    by_cases hc : kp ≠ "" ∧ (lookupAssoc m kp).isSome = true
    · rw [if_pos hc, lookup_updateAssoc]
      by_cases hk : k = kp
      · rw [if_pos hk, h]
        exact ⟨_, rfl, fun q hq => (mem_foldl_add_page _ _ q).mpr (Or.inl hq)⟩
      · rw [if_neg hk, h]
        exact ⟨can, rfl, fun q hq => hq⟩
    · rw [if_neg hc]
      exact ⟨can, h, fun q hq => hq⟩

theorem foldl_absorb_mono (shorts : List Citation) :
    ∀ (m : List (String × Citation)) (k : String) (can : Citation),
      lookupAssoc m k = some can →
      ∃ can', lookupAssoc (shorts.foldl absorbOne m) k = some can' ∧
        ∀ q ∈ can.pages, q ∈ can'.pages := by
  induction shorts with
  | nil => exact fun m k can h => ⟨can, h, fun q hq => hq⟩
  | cons s rest ih =>
    intro m k can h
    rw [List.foldl_cons]
    obtain ⟨can1, h1, hm1⟩ := absorbOne_lookup_mono m s k can h
    obtain ⟨can', h', hm'⟩ := ih _ k can1 h1
    exact ⟨can', h', fun q hq => hm' q (hm1 q hq)⟩

theorem foldl_absorb_contribution (shorts : List Citation) :
    ∀ (m : List (String × Citation)) (sc : Citation) (k : String),
      sc ∈ shorts → sc.parent_key = some k → k ≠ "" →
      (lookupAssoc m k).isSome = true →
      ∃ can', lookupAssoc (shorts.foldl absorbOne m) k = some can' ∧
        ∀ q ∈ sc.pages, q ∈ can'.pages := by
  induction shorts with
  | nil => intro m sc k hsc; cases hsc
  | cons s rest ih =>
    intro m sc k hsc hp hk hsome
    rw [List.foldl_cons]
    obtain ⟨can, hcan⟩ := Option.isSome_iff_exists.mp hsome
    rcases List.mem_cons.mp hsc with rfl | hmem
    · have habs : absorbOne m sc = updateAssoc m k
          (fun can => { can with pages := sc.pages.foldl add_page can.pages }) := by
        rw [absorbOne, hp]
        dsimp only
        rw [if_pos ⟨hk, hsome⟩]
      have hl : lookupAssoc (absorbOne m sc) k =
          some { can with pages := sc.pages.foldl add_page can.pages } := by
        rw [habs, lookup_updateAssoc, if_pos rfl, hcan]
        rfl
      obtain ⟨can', hcan', hmono⟩ := foldl_absorb_mono rest _ k _ hl
      refine ⟨can', hcan', fun q hq => hmono q ?_⟩
      exact (mem_foldl_add_page _ _ q).mpr (Or.inr hq)
    · obtain ⟨can1, h1, _⟩ := absorbOne_lookup_mono m s k can hcan
      refine ih _ sc k hmem hp hk ?_
      rw [h1]
      rfl

theorem absorbOne_inv (m : List (String × Citation)) (s : Citation)
    (hm : ∀ kv ∈ m, kv.2.normalized_key = kv.1 ∧ kv.2.is_short_form = false) :
    ∀ kv ∈ absorbOne m s, kv.2.normalized_key = kv.1 ∧ kv.2.is_short_form = false := by
  intro kv hkv
  rw [absorbOne] at hkv
  cases hp : s.parent_key with
  | none => rw [hp] at hkv; exact hm kv hkv
  | some kp =>
    rw [hp] at hkv
    dsimp only at hkv
    by_cases hc : kp ≠ "" ∧ (lookupAssoc m kp).isSome = true
    · rw [if_pos hc] at hkv
      rcases mem_updateAssoc _ _ _ kv hkv with h1 | ⟨kv1, hkv1, _, rfl⟩
      · exact hm kv h1
      · obtain ⟨ha, hb⟩ := hm kv1 hkv1
        exact ⟨ha, hb⟩
    · rw [if_neg hc] at hkv
      exact hm kv hkv

theorem foldl_absorb_inv (shorts : List Citation) :
    ∀ m, (∀ kv ∈ m, kv.2.normalized_key = kv.1 ∧ kv.2.is_short_form = false) →
      ∀ kv ∈ shorts.foldl absorbOne m,
        kv.2.normalized_key = kv.1 ∧ kv.2.is_short_form = false := by
  induction shorts with
  | nil => exact fun m hm => hm
  | cons s rest ih =>
    intro m hm
    rw [List.foldl_cons]
    exact ih _ (absorbOne_inv m s hm)

theorem mapKeys_absorbOne (m : List (String × Citation)) (s : Citation) :
    mapKeys (absorbOne m s) = mapKeys m := by
  rw [absorbOne]
  cases s.parent_key with
  | none => rfl
  | some kp =>
    dsimp only
    by_cases hc : kp ≠ "" ∧ (lookupAssoc m kp).isSome = true
    · rw [if_pos hc, mapKeys_updateAssoc]
    · rw [if_neg hc]

theorem mapKeys_foldl_absorb (shorts : List Citation) :
    ∀ m, mapKeys (shorts.foldl absorbOne m) = mapKeys m := by
  induction shorts with
  | nil => exact fun m => rfl
  | cons s rest ih =>
    intro m
    rw [List.foldl_cons, ih, mapKeys_absorbOne]

theorem resolve_short_forms_fst (fulls shorts : List Citation) :
    (resolve_short_forms fulls shorts).1 = fulls := by
  unfold resolve_short_forms
  split_ifs <;> rfl

theorem foldl_merge_spec (r : List Citation) : ∀ c0 : Citation,
    List.Sorted (· ≤ ·) c0.pages → c0.pages.Nodup →
    List.Sorted (· ≤ ·) ((r.foldl merge_pages c0).pages) ∧
    (r.foldl merge_pages c0).pages.Nodup ∧
    (∀ q, q ∈ (r.foldl merge_pages c0).pages ↔ q ∈ c0.pages ∨ ∃ c ∈ r, q ∈ c.pages) ∧
    r.foldl merge_pages c0 = { c0 with pages := (r.foldl merge_pages c0).pages } := by
  induction r with
  | nil =>
    intro c0 hs hn
    exact ⟨hs, hn, by simp, rfl⟩
  | cons c r' ih =>
    intro c0 hs hn
    rw [List.foldl_cons]
    obtain ⟨h1, h2, h3, _⟩ := merge_pages_spec c0 c hn
    obtain ⟨g1, g2, g3, g4⟩ := ih (merge_pages c0 c) h1 h2
    refine ⟨g1, g2, fun q => ?_, ?_⟩
    · rw [g3 q, h3 q]
      constructor
      · rintro ((hq | hq) | ⟨c2, hc2, hq⟩)
        · exact Or.inl hq
        · exact Or.inr ⟨c, List.mem_cons_self _ _, hq⟩
        · exact Or.inr ⟨c2, List.mem_cons_of_mem _ hc2, hq⟩
      · rintro (hq | ⟨c2, hc2, hq⟩)
        · exact Or.inl (Or.inl hq)
        · rcases List.mem_cons.mp hc2 with rfl | hc3
          · exact Or.inl (Or.inr hq)
          · exact Or.inr ⟨c2, hc3, hq⟩
    · rw [g4]
      rfl

theorem to_citations_elem (ms : List RawMatch) (c : Citation) (hc : c ∈ to_citations ms) :
    ∃ m ∈ ms, c = { full_text := m.text
                    display_name := make_display_name m.text
                    category := m.category
                    pages := [m.page]
                    is_short_form := listLeads shortTag m.pattern_name.data
                    normalized_key := if listLeads shortTag m.pattern_name.data then ""
                      else normalize m.text m.pattern_name
                    confidence := 1 } := by
  obtain ⟨m, hm, he⟩ := List.mem_map.mp hc
  exact ⟨m, hm, he.symm⟩

set_option maxHeartbeats 1000000 in
/-- C1: in the final output of detect no two citations share an equal
nonempty normalized_key; and in the key map built by the merge step, for
every key the first full citation carrying it is the canonical entry,
agreeing with that first citation on every field except pages, and its
pages are the sorted duplicate-free union of the pages of all full
citations carrying the key, the later sharers being discarded into it. -/
theorem detect_dedup_merge (raw : List RawMatch) :
    List.Pairwise (fun a b => ¬(a.normalized_key = b.normalized_key ∧
      a.normalized_key ≠ "")) (detect raw) ∧
    (∀ (k : String) (c0 : Citation) (r : List Citation),
      ((to_citations (remove_overlaps raw)).filter (fun c => !c.is_short_form)).filter
          (fun c => decide (c.normalized_key = k)) = c0 :: r →
      ∃ can, lookupAssoc (buildKeyMap
          ((to_citations (remove_overlaps raw)).filter (fun c => !c.is_short_form)) []) k =
          some can ∧
        List.Sorted (· ≤ ·) can.pages ∧ can.pages.Nodup ∧
        (∀ q, q ∈ can.pages ↔ ∃ c ∈ (to_citations (remove_overlaps raw)).filter
            (fun c => !c.is_short_form), c.normalized_key = k ∧ q ∈ c.pages) ∧
        can = { c0 with pages := can.pages }) := by
  constructor
  · show List.Pairwise _ (detect_tail (to_citations (remove_overlaps raw)))
    simp only [detect_tail]
    rw [resolve_short_forms_fst]
    set fulls := (to_citations (remove_overlaps raw)).filter (fun c => !c.is_short_form)
      with hfulls
    set shorts2 := (resolve_short_forms fulls
      ((to_citations (remove_overlaps raw)).filter (fun c => c.is_short_form))).2 with hshorts2
    set m2 := shorts2.foldl absorbOne (buildKeyMap fulls []) with hm2
    have hflag : ∀ c ∈ fulls, c.is_short_form = false := by
      intro c hc
      have := (List.mem_filter.mp hc).2
      simpa using this
    have hinv : ∀ kv ∈ m2, kv.2.normalized_key = kv.1 ∧ kv.2.is_short_form = false := by
      refine foldl_absorb_inv shorts2 _ ?_
      exact buildKeyMap_inv fulls [] (by intro kv h; cases h) hflag
    have hnd : (mapKeys m2).Nodup := by
      rw [hm2, mapKeys_foldl_absorb]
      exact buildKeyMap_keys_nodup fulls [] List.nodup_nil
    have hpair0 : List.Pairwise (fun kv kv' : String × Citation => kv.1 ≠ kv'.1) m2 :=
      List.pairwise_map.mp hnd
    have hpair1 : List.Pairwise
        (fun kv kv' : String × Citation =>
          kv.2.normalized_key ≠ kv'.2.normalized_key) m2 := by
      refine hpair0.imp_of_mem ?_
      intro a b ha hb h
      rw [(hinv a ha).1, (hinv b hb).1]
      exact h
    have hkeyproj : ∀ kv : String × Citation,
        (generate_sort_key kv.2).normalized_key = kv.2.normalized_key := fun kv => rfl
    have hpair2 : List.Pairwise (fun a b : Citation =>
        a.normalized_key ≠ b.normalized_key)
        (m2.map (fun kv => generate_sort_key kv.2)) := by
      refine List.Pairwise.map _ ?_ hpair1
      intro a b h
      rw [hkeyproj a, hkeyproj b]
      exact h
    have hperm := List.perm_insertionSort final_order
      (m2.map (fun kv => generate_sort_key kv.2))
    have hsym : ∀ {x y : Citation},
        ¬(x.normalized_key = y.normalized_key ∧ x.normalized_key ≠ "") →
        ¬(y.normalized_key = x.normalized_key ∧ y.normalized_key ≠ "") := by
      intro x y h hcon
      exact h ⟨hcon.1.symm, hcon.1 ▸ hcon.2⟩
    refine (hperm.pairwise_iff hsym).mpr ?_
    exact hpair2.imp (fun h hcon => h hcon.1)
  · intro k c0 r hfilter
    have hsome := lookup_buildKeyMap_none
      ((to_citations (remove_overlaps raw)).filter (fun c => !c.is_short_form)) [] k rfl
    rw [hfilter] at hsome
    dsimp only at hsome
    refine ⟨r.foldl merge_pages c0, hsome, ?_⟩
    have hc0fil : c0 ∈ ((to_citations (remove_overlaps raw)).filter
        (fun c => !c.is_short_form)).filter (fun c => decide (c.normalized_key = k)) := by
      rw [hfilter]
      exact List.mem_cons_self _ _
    have hc0f := List.mem_of_mem_filter hc0fil
    have hc0k : c0.normalized_key = k := by
      have := (List.mem_filter.mp hc0fil).2
      simpa using this
    obtain ⟨mm, _, he⟩ := to_citations_elem _ _ (List.mem_of_mem_filter hc0f)
    have hs0 : List.Sorted (· ≤ ·) c0.pages := by
      rw [he]
      exact List.sorted_singleton _
    have hn0 : c0.pages.Nodup := by
      rw [he]
      exact List.nodup_singleton _
    obtain ⟨g1, g2, g3, g4⟩ := foldl_merge_spec r c0 hs0 hn0
    refine ⟨g1, g2, fun q => ?_, g4⟩
    rw [g3 q]
    constructor
    · rintro (hq | ⟨c2, hc2, hq⟩)
      · exact ⟨c0, hc0f, hc0k, hq⟩
      · have hc2fil : c2 ∈ ((to_citations (remove_overlaps raw)).filter
            (fun c => !c.is_short_form)).filter
            (fun c => decide (c.normalized_key = k)) := by
          rw [hfilter]
          exact List.mem_cons_of_mem _ hc2
        refine ⟨c2, List.mem_of_mem_filter hc2fil, ?_, hq⟩
        have := (List.mem_filter.mp hc2fil).2
        simpa using this
    · rintro ⟨c2, hc2, hk2, hq⟩
      have hmem : c2 ∈ ((to_citations (remove_overlaps raw)).filter
          (fun c => !c.is_short_form)).filter (fun c => decide (c.normalized_key = k)) :=
        List.mem_filter.mpr ⟨hc2, by simpa using hk2⟩
      rw [hfilter] at hmem
      rcases List.mem_cons.mp hmem with rfl | h3
      · exact Or.inl hq
      · exact Or.inr ⟨c2, h3, hq⟩

/-- Concrete raw match with an explicit page, used by the C1 witness. -/
def wMatchP (s e pg : Nat) : RawMatch :=
  { text := "w", start := s, endPos := e, page := pg,
    pattern_name := "case_full", category := .CASES }

/-- The citation built from the second witness match. -/
def wBuiltCite2 : Citation :=
  { full_text := "w"
    display_name := "w"
    category := .CASES
    pages := [2]
    normalized_key := "w" }

/-- Witness for C1 at two full citations sharing a key. -/
theorem detect_dedup_merge_witness :
    ∃ can, lookupAssoc (buildKeyMap ((to_citations (remove_overlaps
        [wMatchP 0 1 1, wMatchP 10 11 2])).filter (fun c => !c.is_short_form)) []) "w" =
        some can ∧
      List.Sorted (· ≤ ·) can.pages ∧ can.pages.Nodup ∧
      (∀ q, q ∈ can.pages ↔ ∃ c ∈ (to_citations (remove_overlaps
          [wMatchP 0 1 1, wMatchP 10 11 2])).filter (fun c => !c.is_short_form),
          c.normalized_key = "w" ∧ q ∈ c.pages) ∧
      can = { wBuiltCite with pages := can.pages } :=
  (detect_dedup_merge [wMatchP 0 1 1, wMatchP 10 11 2]).2 "w" wBuiltCite [wBuiltCite2]
    (by decide)

theorem shorts2_parent (fulls shorts : List Citation) (sc : Citation)
    (hsc : sc ∈ (resolve_short_forms fulls shorts).2)
    (hpn : ∀ s ∈ shorts, s.parent_key = none) :
    sc.parent_key = none ∨ ∃ fc ∈ fulls, sc.parent_key = some fc.normalized_key := by
  unfold resolve_short_forms at hsc
  by_cases hg : (fulls.isEmpty || shorts.isEmpty) = true
  · rw [if_pos hg] at hsc
    exact Or.inl (hpn sc hsc)
  · rw [if_neg hg] at hsc
    obtain ⟨sc0, hsc0, rfl⟩ := List.mem_map.mp hsc
    rcases resolve_one_cases fulls (ordered_fulls fulls) sc0 with hcase | ⟨fc, hfc, hcase⟩
    · rw [hcase]
      exact Or.inl (hpn sc0 hsc0)
    · rw [hcase]
      refine Or.inr ⟨fc, ?_, rfl⟩
      rcases hfc with h | h
      · exact h
      · exact ((List.perm_insertionSort page_order fulls).mem_iff).mp h

set_option maxHeartbeats 1000000 in
/-- C3: every short-form citation is closed out by detect: no citation in
the final output is a short form and no member of the resolved short list
appears in the output (unresolved short forms vanish silently); and every
short form whose parent_key was set has each of its page numbers present
in the pages of an output citation carrying that normalized key.  The
hypothesis records what the pattern stage guarantees, that full-form
matches normalize to nonempty keys. -/
theorem detect_short_closure (raw : List RawMatch)
    (hkey : ∀ m ∈ remove_overlaps raw, listLeads shortTag m.pattern_name.data = false →
      normalize m.text m.pattern_name ≠ "") :
    (∀ c ∈ detect raw, c.is_short_form = false) ∧
    (∀ sc ∈ (resolve_short_forms
        ((to_citations (remove_overlaps raw)).filter (fun c => !c.is_short_form))
        ((to_citations (remove_overlaps raw)).filter (fun c => c.is_short_form))).2,
      sc ∉ detect raw) ∧
    (∀ sc ∈ (resolve_short_forms
        ((to_citations (remove_overlaps raw)).filter (fun c => !c.is_short_form))
        ((to_citations (remove_overlaps raw)).filter (fun c => c.is_short_form))).2,
      ∀ k, sc.parent_key = some k →
      ∃ c ∈ detect raw, c.normalized_key = k ∧ ∀ p ∈ sc.pages, p ∈ c.pages) := by
  set cs := to_citations (remove_overlaps raw) with hcs
  set fulls := cs.filter (fun c => !c.is_short_form) with hfullsdef
  set shorts := cs.filter (fun c => c.is_short_form) with hshortsdef
  set shorts2 := (resolve_short_forms fulls shorts).2 with hshorts2
  set m2 := shorts2.foldl absorbOne (buildKeyMap fulls []) with hm2
  have hdt : detect raw = List.insertionSort final_order
      (m2.map (fun kv => generate_sort_key kv.2)) := by
    show detect_tail cs = _
    simp only [detect_tail]
    rw [resolve_short_forms_fst]
  have hflag : ∀ c ∈ fulls, c.is_short_form = false := by
    intro c hc
    have := (List.mem_filter.mp hc).2
    simpa using this
  have hinv : ∀ kv ∈ m2, kv.2.normalized_key = kv.1 ∧ kv.2.is_short_form = false := by
    refine foldl_absorb_inv shorts2 _ ?_
    exact buildKeyMap_inv fulls [] (by intro kv h; cases h) hflag
  have hout : ∀ c ∈ detect raw, c.is_short_form = false := by
    intro c hc
    rw [hdt] at hc
    have hc2 := ((List.perm_insertionSort final_order _).mem_iff).mp hc
    obtain ⟨kv, hkv, rfl⟩ := List.mem_map.mp hc2
    exact (hinv kv hkv).2
  have hsnd : ∀ sc ∈ shorts2, sc.is_short_form = true := by
    intro sc hsc
    rw [hshorts2] at hsc
    unfold resolve_short_forms at hsc
    by_cases hg : (fulls.isEmpty || shorts.isEmpty) = true
    · rw [if_pos hg] at hsc
      have := (List.mem_filter.mp hsc).2
      simpa using this
    · rw [if_neg hg] at hsc
      obtain ⟨sc0, hsc0, rfl⟩ := List.mem_map.mp hsc
      have hfr := resolve_one_frame fulls (ordered_fulls fulls) sc0
      rw [hfr.2.2.2.2.1]
      have := (List.mem_filter.mp hsc0).2
      simpa using this
  have hpn : ∀ s ∈ shorts, s.parent_key = none := by
    intro s hs
    obtain ⟨m, _, he⟩ := to_citations_elem _ _ (List.mem_of_mem_filter hs)
    rw [he]
  refine ⟨hout, ?_, ?_⟩
  · intro sc hsc hin
    exact Bool.noConfusion ((hsnd sc hsc).symm.trans (hout sc hin))
  · intro sc hsc k hk
    rcases shorts2_parent fulls shorts sc hsc hpn with hnone | ⟨fc, hfcmem, hpe⟩
    · rw [hnone] at hk
      cases hk
    · have hkfc : fc.normalized_key = k := Option.some_inj.mp (hpe.symm.trans hk)
      have hkne : k ≠ "" := by
        obtain ⟨mf, hmf, hef⟩ := to_citations_elem _ _ (List.mem_of_mem_filter hfcmem)
        have hflagf : fc.is_short_form = false := hflag fc hfcmem
        have hshort : listLeads shortTag mf.pattern_name.data = false := by
          rw [hef] at hflagf
          simpa using hflagf
        have hfckey : fc.normalized_key = normalize mf.text mf.pattern_name := by
          rw [hef]
          simp [hshort]
        rw [← hkfc, hfckey]
        exact hkey mf hmf hshort
      have hlook : (lookupAssoc (buildKeyMap fulls []) k).isSome = true := by
        have h0 := lookup_buildKeyMap_none fulls [] k rfl
        have hfcmem2 : fc ∈ fulls.filter (fun c => decide (c.normalized_key = k)) :=
          List.mem_filter.mpr ⟨hfcmem, by simpa using hkfc⟩
        cases hfil : fulls.filter (fun c => decide (c.normalized_key = k)) with
        | nil =>
          rw [hfil] at hfcmem2
          cases hfcmem2
        | cons ch rt =>
          rw [hfil] at h0
          rw [h0]
          rfl
      obtain ⟨can', hcan', hpg⟩ := foldl_absorb_contribution shorts2
        (buildKeyMap fulls []) sc k hsc hk hkne hlook
      have hkv : (k, can') ∈ m2 := lookup_mem _ _ _ hcan'
      have hinvk := hinv (k, can') hkv
      refine ⟨generate_sort_key can', ?_, ?_, ?_⟩
      · rw [hdt]
        exact ((List.perm_insertionSort final_order _).mem_iff).mpr
          (List.mem_map.mpr ⟨(k, can'), hkv, rfl⟩)
      · exact hinvk.1
      · intro p hp
        exact hpg p hp

/-- Concrete Id. raw match used by the C3 witness. -/
def wShortMatch : RawMatch :=
  { text := "Id. at 460.", start := 100, endPos := 111, page := 2,
    pattern_name := "short_id", category := .CASES }

/-- Witness for C3 at one full citation and one Id. short form resolving
into it. -/
theorem detect_short_closure_witness :
    (∀ c ∈ detect [wMatchP 0 1 1, wShortMatch], c.is_short_form = false) ∧
    (∀ sc ∈ (resolve_short_forms
        ((to_citations (remove_overlaps [wMatchP 0 1 1, wShortMatch])).filter
          (fun c => !c.is_short_form))
        ((to_citations (remove_overlaps [wMatchP 0 1 1, wShortMatch])).filter
          (fun c => c.is_short_form))).2,
      sc ∉ detect [wMatchP 0 1 1, wShortMatch]) ∧
    (∀ sc ∈ (resolve_short_forms
        ((to_citations (remove_overlaps [wMatchP 0 1 1, wShortMatch])).filter
          (fun c => !c.is_short_form))
        ((to_citations (remove_overlaps [wMatchP 0 1 1, wShortMatch])).filter
          (fun c => c.is_short_form))).2,
      ∀ k, sc.parent_key = some k →
      ∃ c ∈ detect [wMatchP 0 1 1, wShortMatch], c.normalized_key = k ∧
        ∀ p ∈ sc.pages, p ∈ c.pages) :=
  detect_short_closure [wMatchP 0 1 1, wShortMatch] (by decide)

end ToA
